import Mathlib

namespace StockScorer

/-!
# Verification of the AI stock scorer core

A shallow embedding, in Lean 4, of the core logic of the `AI_stock_scorer`
repository: the metric registry and weighted aggregation
(`scorer.py:calculate_total_score`), the percentile computation
(`scorer.py:calculate_percentile_rank`), identity resolution
(`scorer.py:resolve_to_company_name`), the acquisition engine
(`scorer.py:score_single_ticker`), the key migration
(`scorer.py` / `moat_scorer.py`: `migrate_scores_to_lowercase`), and the
oracle-comparison ranker (`grok_moat_sorter.py`: `merge_sort_companies`,
`merge`).

Python dictionaries are modelled as association lists in insertion order
(Python dicts preserve insertion order and have unique keys); Python strings
use Lean `String`; string case transformations model the ASCII fragment of
Python `str.lower` / `str.upper` (all keys in the repository's data are
ASCII); `float(...)` parsing is modelled for plain decimal literals; the
oracle (the Grok network client) is an explicit state-passing function.
Where the Python code uses IEEE-754 binary64 arithmetic in an observable way
(`calculate_percentile_rank`), the binary64 rounding is modelled exactly
over `ℚ`.
-/

/-! ## String helpers (Python `strip` / `lower` / `upper` / `isalpha`) -/

/-- Python `str.strip()`: remove leading and trailing whitespace. -/
def pyStrip (s : String) : String :=
  ⟨((s.data.dropWhile Char.isWhitespace).reverse.dropWhile Char.isWhitespace).reverse⟩

/-- Python `str.lower()` restricted to ASCII (per-character lowercasing). -/
def pyLower (s : String) : String :=
  ⟨s.data.map Char.toLower⟩

/-- Python `str.upper()` restricted to ASCII (per-character uppercasing). -/
def pyUpper (s : String) : String :=
  ⟨s.data.map Char.toUpper⟩

/-- Python `str.isalpha()` restricted to ASCII: nonempty and all letters. -/
def pyIsAlpha (s : String) : Bool :=
  !s.data.isEmpty && s.data.all Char.isAlpha

/-- Python truthiness of an optional string value (`None` and `""` are falsy). -/
def truthy : Option String → Bool
  | none => false
  | some s => !(s = "")

/-! ## Association lists modelling Python dicts -/

/-- `d.get(k)` / `d[k]`: first binding of `k` (keys are unique in a dict). -/
def alookup {α : Type} (l : List (String × α)) (k : String) : Option α :=
  match l.find? (fun p => p.1 = k) with
  | none => none
  | some p => some p.2

/-- `k in d`. -/
def amem {α : Type} (l : List (String × α)) (k : String) : Bool :=
  l.any (fun p => p.1 = k)

/-- `d[k] = v` on a dict: replace the binding in place if the key is present,
otherwise append the new binding at the end (Python insertion order). -/
def ainsert {α : Type} (l : List (String × α)) (k : String) (v : α) : List (String × α) :=
  if amem l k then l.map (fun p => if p.1 = k then (k, v) else p) else l ++ [(k, v)]

/-! ## Number parsing: Python `float(...)` on decimal literals

`calculate_total_score` calls `float(...)` on stored metric values and
treats `ValueError`/`TypeError` as a zero contribution.  We model `float`
on the shapes that occur in stored records: an optional sign, digits, and
an optional decimal point (at least one digit overall), with surrounding
whitespace allowed.  Exotic notations accepted by CPython (exponents,
`inf`, `nan`, underscores) are outside the model. -/

/-- Value of a digit character. -/
def digitVal (c : Char) : ℕ := c.toNat - 48

/-- Parse a nonempty all-digit list as a natural number. -/
def digitsVal (cs : List Char) : ℕ :=
  cs.foldl (fun n c => 10 * n + digitVal c) 0

/-- Parse an unsigned decimal literal `digits[.digits]` (one side of the
point may be empty, but not both). -/
def parseUnsigned : List Char → Option ℚ
  | cs =>
    match cs.splitOn '.' with
    | [intPart] =>
      if intPart ≠ [] ∧ intPart.all Char.isDigit then some (digitsVal intPart) else none
    | [intPart, fracPart] =>
      if (intPart ≠ [] ∨ fracPart ≠ []) ∧ intPart.all Char.isDigit ∧ fracPart.all Char.isDigit
      then some ((digitsVal intPart : ℚ) + (digitsVal fracPart : ℚ) / (10 : ℚ) ^ fracPart.length)
      else none
    | _ => none

/-- Python `float(s)` for a string `s`, on plain decimal literals. -/
def pyFloat (s : String) : Option ℚ :=
  match (pyStrip s).data with
  | '-' :: rest => (parseUnsigned rest).map (fun q => -q)
  | '+' :: rest => parseUnsigned rest
  | cs => parseUnsigned cs

/-! ## Metric Registry (`scorer.py`: `SCORE_DEFINITIONS`, `SCORE_WEIGHTS`)

`SCORE_DEFINITIONS` is an insertion-ordered dict from metric key to a
definition record; the fields consumed by the logic modelled here are the
key and the `is_reverse` flag (the prompt text and display name only flow
into the oracle request and progress printing).  `SCORE_WEIGHTS` maps every
registry key to `10`. -/

/-- The registry keys with their `is_reverse` flags, in source order. -/
def SCORE_DEFINITIONS : List (String × Bool) :=
  [("moat_score", false),
   ("barriers_score", false),
   ("disruption_risk", true),
   ("switching_cost", false),
   ("brand_strength", false),
   ("competition_intensity", true),
   ("network_effect", false),
   ("product_differentiation", false),
   ("innovativeness_score", false),
   ("growth_opportunity", false),
   ("riskiness_score", true),
   ("pricing_power", false),
   ("ambition_score", false),
   ("bargaining_power_of_customers", true),
   ("bargaining_power_of_suppliers", true),
   ("product_quality_score", false),
   ("culture_employee_satisfaction_score", false),
   ("trailblazer_score", false)]

/-- `SCORE_WEIGHTS`: every registry key is weighted 10. -/
def SCORE_WEIGHTS : List (String × ℚ) :=
  SCORE_DEFINITIONS.map (fun p => (p.1, (10 : ℚ)))

/-- The registry's key set, in order. -/
def registryKeys : List String := SCORE_DEFINITIONS.map Prod.fst

/-- A stored metric record: a flat key → string mapping. -/
abbrev Record := List (String × String)

/-- A score store: canonical key → record (the `"companies"` dict). -/
abbrev Store := List (String × Record)

/-! ## Aggregation (`scorer.py:calculate_total_score`) -/

/-- One iteration of the `calculate_total_score` loop: the contribution of
the metric `key` (with flag `rev`) given the record.  `scores_dict.get(key, 0)`
defaults an absent key to `0`; `float` failure (`ValueError`/`TypeError`)
contributes nothing. -/
def metric_contribution (scores_dict : Record) (key : String) (rev : Bool) : ℚ :=
  let weight := (alookup SCORE_WEIGHTS key).getD 1
  match (match alookup scores_dict key with
         | none => some (0 : ℚ)
         | some v => pyFloat v) with
  | none => 0
  | some x => if rev then (10 - x) * weight else x * weight

/-- `calculate_total_score` (scorer.py lines 631-653): fold the per-metric
contributions over the registry. -/
def calculate_total_score (scores_dict : Record) : ℚ :=
  SCORE_DEFINITIONS.foldl
    (fun total p =>
      let weight := (alookup SCORE_WEIGHTS p.1).getD 1
      match (match alookup scores_dict p.1 with
             | none => some (0 : ℚ)
             | some v => pyFloat v) with
      | none => total
      | some x => if p.2 then total + (10 - x) * weight else total + x * weight)
    0

/-- The spec's description of a metric's contribution (§4.5 of the spec):
parse the record's value as a number (an absent key reads as the raw value
`0`); on parse failure the contribution is zero; if `is_reverse` contribute
`(10 - v) * weight`, else `v * weight`. -/
def spec_contribution (record : Record) (key : String) (rev : Bool) : ℚ :=
  let weight := (alookup SCORE_WEIGHTS key).getD 1
  let parsed : Option ℚ :=
    match alookup record key with
    | none => some 0
    | some v => pyFloat v
  match parsed with
  | none => 0
  | some v => if rev then (10 - v) * weight else v * weight

/-! ## Percentile rank (`scorer.py:calculate_percentile_rank`)

The Python computes `int((scores_less_or_equal / len(all_scores)) * 100)` in
IEEE-754 binary64 arithmetic: CPython's `int / int` produces the correctly
rounded (round-to-nearest, ties-to-even) double of the exact quotient, and
`float * int` converts `100` exactly and rounds the product once.  We model
the binary64 values as the exact rationals they denote, with `fpRound` the
correct-rounding function to 53-bit precision (the magnitudes involved —
quotients in `[0, 1]` scaled by `100` — are far inside the normal range, so
overflow and subnormal behaviour never arise and are not modelled). -/

/-- Round a rational to the nearest integer, ties to even. -/
def rne (q : ℚ) : ℤ :=
  if q - ⌊q⌋ < 1 / 2 then ⌊q⌋
  else if 1 / 2 < q - ⌊q⌋ then ⌊q⌋ + 1
  else if ⌊q⌋ % 2 = 0 then ⌊q⌋ else ⌊q⌋ + 1

/-- The exact rational value of the binary64 double nearest to `q` (ties to
even), for `q` in the normal range; nonpositive inputs (only `0` occurs in
the modelled computation) map to `0`. -/
def fpRound (q : ℚ) : ℚ :=
  if q ≤ 0 then 0
  else (rne (q * 2 ^ (52 - Int.log 2 q)) : ℚ) * 2 ^ (Int.log 2 q - 52)

/-- Binary64 division of exactly represented operands. -/
def fpDiv (a b : ℚ) : ℚ := fpRound (a / b)

/-- Binary64 multiplication of exactly represented operands. -/
def fpMul (a b : ℚ) : ℚ := fpRound (a * b)

/-- Python `int(...)` on a float: truncation toward zero. -/
def pyInt (q : ℚ) : ℤ := if 0 ≤ q then ⌊q⌋ else -⌊-q⌋

/-- `calculate_percentile_rank` (scorer.py lines 656-674): `None` on an empty
population, else `int((count of scores ≤ score / population size) * 100)`
evaluated in binary64. -/
def calculate_percentile_rank (score : ℚ) (all_scores : List ℚ) : Option ℤ :=
  if all_scores.isEmpty then none
  else
    let scores_less_or_equal : ℕ := (all_scores.filter (fun s => s ≤ score)).length
    some (pyInt (fpMul (fpDiv scores_less_or_equal all_scores.length) 100))

/-! ## Identity resolution (`scorer.py:resolve_to_company_name`, lines 137-153;
`scorer_simple.py` lines 74-90 is textually identical)

The input is stripped and upper-cased; a result of 1 to 5 alphabetic
characters is treated as a ticker candidate and looked up in the ticker
table; on a hit the mapped company name and the ticker are returned, otherwise
the stripped input is returned as a free-form company name with no ticker. -/

/-- `resolve_to_company_name`, parameterized by the loaded ticker lookup
table (`load_ticker_lookup()` reads it from disk; resolution itself is pure
in the table). -/
def resolve_to_company_name (ticker_lookup : List (String × String)) (input_str : String) :
    String × Option String :=
  let input_upper := pyUpper (pyStrip input_str)
  if 1 ≤ input_upper.data.length ∧ input_upper.data.length ≤ 5 ∧ pyIsAlpha input_upper then
    match alookup ticker_lookup input_upper with
    | some company_name => (company_name, some input_upper)
    | none => (pyStrip input_str, none)
  else (pyStrip input_str, none)

/-! ## Key migration (`scorer.py` lines 1585-1608; `moat_scorer.py` lines
434-460 is the same function)

`migrate_scores_to_lowercase` rebuilds the companies dict with lowercased
keys; when two original keys collapse, the record with the later `timestamp`
(when both records carry one; `datetime.fromisoformat` comparison of
well-formed ISO-8601 strings agrees with lexicographic string comparison,
which is how we model it), else with the later `date` string, wins; otherwise
the first record found is kept.  The source mutates and saves the stores
file and returns the entry count; we model the store transformation. -/

/-- One iteration of the migration loop over an original `(key, record)` entry. -/
def migrate_step (acc : Store) (p : String × Record) : Store :=
  let company_lower := pyLower p.1
  match alookup acc company_lower with
  | none => acc ++ [(company_lower, p.2)]
  | some existing =>
    if amem existing "timestamp" ∧ amem p.2 "timestamp" then
      if (alookup existing "timestamp").getD "1900-01-01T00:00:00"
          < (alookup p.2 "timestamp").getD "1900-01-01T00:00:00"
      then ainsert acc company_lower p.2
      else acc
    else
      if (alookup existing "date").getD "1900-01-01" < (alookup p.2 "date").getD "1900-01-01"
      then ainsert acc company_lower p.2
      else acc

/-- `migrate_scores_to_lowercase`: fold the migration step over the existing
entries in insertion order, starting from an empty dict. -/
def migrate_scores_to_lowercase (companies : Store) : Store :=
  companies.foldl migrate_step []

/-- Invariant maintained by the migration fold: the accumulator has distinct
keys, all of them fixed points of lowercasing. -/
def StoreKeysGood (s : Store) : Prop :=
  (s.map Prod.fst).Nodup ∧ ∀ k ∈ s.map Prod.fst, pyLower k = k

/-! ## Oracle-comparison ranker (`grok_moat_sorter.py`)

`compare_companies_grok` asks the oracle which company has the stronger moat
and returns `-1` (left stronger — also the default on an unclear response or
any exception), `1` (right stronger), or `0`; it increments a global call
counter on every invocation.  We model the oracle as an arbitrary
state-passing function `cmp : σ → α → α → Int × σ` (the state covers any
behaviour of the remote service, including errors, which the source folds
into the returned integer), and thread an explicit count of comparison
calls through `merge` and `merge_sort_companies`. -/

/-- `merge` (grok_moat_sorter.py lines 115-145): merge two lists, asking the
oracle once per loop iteration; `comparison <= 0` takes the left head.
Returns the merged list, the oracle's final state, and the number of
comparison calls made. -/
def merge {α σ : Type} (cmp : σ → α → α → Int × σ) :
    σ → List α → List α → List α × σ × ℕ
  | s, [], right => (right, s, 0)
  | s, a :: left, [] => (a :: left, s, 0)
  | s, a :: left, b :: right =>
    match cmp s a b with
    | (comparison, s1) =>
      if comparison ≤ 0 then
        match merge cmp s1 left (b :: right) with
        | (res, s2, n) => (a :: res, s2, n + 1)
      else
        match merge cmp s1 (a :: left) right with
        | (res, s2, n) => (b :: res, s2, n + 1)
termination_by _ l r => l.length + r.length

/-- `merge_sort_companies` (grok_moat_sorter.py lines 92-112): lists of
length ≤ 1 are returned as-is; otherwise split at `len // 2`, recursively
sort both halves, and merge them. -/
def merge_sort_companies {α σ : Type} (cmp : σ → α → α → Int × σ) :
    σ → List α → List α × σ × ℕ
  | s, companies =>
    if companies.length ≤ 1 then (companies, s, 0)
    else
      match merge_sort_companies cmp s (companies.take (companies.length / 2)) with
      | (left, s1, n1) =>
        match merge_sort_companies cmp s1 (companies.drop (companies.length / 2)) with
        | (right, s2, n2) =>
          match merge cmp s2 left right with
          | (res, s3, n3) => (res, s3, n1 + n2 + n3)
termination_by _ companies => companies.length
decreasing_by
  · simp only [List.length_take]
    omega
  · simp only [List.length_drop]
    omega

/-- An oracle that always answers according to a ground-truth strict total
order, where `a < b` reads "`a` is strictly stronger than `b`": `-1` when the
left entity is stronger, `1` when the right one is, `0` on a tie (the return
convention of `compare_companies_grok`). -/
def truthOracle {α : Type} [LinearOrder α] : Unit → α → α → Int × Unit :=
  fun s a b => (if a < b then -1 else if b < a then 1 else 0, s)

/-! ## Acquisition engine (`scorer.py:score_single_ticker`, lines 752-918)

The oracle (`query_score`, i.e. the Grok client) is modelled as a
state-passing function from (state, company name, metric key) to the raw
textual response and the next state; `query_score` strips the response
before it is stored.  Printing, timing, and the `silent`/`batch_mode` flags
do not affect the data flow and are not modelled; the `except` clauses at
the end of the source catch client-construction and transport errors, which
the total oracle function cannot raise.  The function returns the result
dict (or `none` for an invalid ticker), the resulting stores dict (saved
via `save_scores` in the source), the list of metric keys queried (one entry
per oracle call, in call order), and the final oracle state. -/

/-- The result dict built by `score_single_ticker` on success. -/
structure ScoreResult where
  ticker : String
  company_name : String
  scores : Record
  total : ℚ
  success : Bool
  already_scored : Bool
deriving DecidableEq

/-- The effective value the loop at scorer.py lines 799-803 reads for a
metric key: `existing_data.get(score_key, existing_data.get('score'))` for
`moat_score` (the legacy flat `score` field acts as a default), plain
`existing_data.get(score_key)` otherwise. -/
def effectiveValue (existing_data : Record) (k : String) : Option String :=
  if k = "moat_score" then
    (alookup existing_data k).orElse (fun _ => alookup existing_data "score")
  else alookup existing_data k

/-- The `current_scores` dict built from an existing record (lines 798-803):
registry keys in registry order, each with its effective value. -/
def currentScores (existing_data : Record) : List (String × Option String) :=
  SCORE_DEFINITIONS.map (fun p => (p.1, effectiveValue existing_data p.1))

/-- Materialize an all-truthy `current_scores` as a string-valued record. -/
def forceScores (l : List (String × Option String)) : Record :=
  l.map (fun p => (p.1, p.2.getD ""))

/-- The querying loop (lines 822-833, and lines 859-870 when starting from
an all-`None` dict): walk the dict in order; keep truthy values, query the
oracle for falsy ones and store the stripped response.  Returns the filled
record, the queried keys in order, and the final oracle state. -/
def fillScores {σ : Type} (oracle : σ → String → String → String × σ) (company_name : String) :
    List (String × Option String) → σ → Record × List String × σ
  | [], s => ([], [], s)
  | (k, v) :: rest, s =>
    if truthy v then
      match fillScores oracle company_name rest s with
      | (res, log, s1) => ((k, v.getD "") :: res, log, s1)
    else
      match oracle s company_name k with
      | (resp, s1) =>
        match fillScores oracle company_name rest s1 with
        | (res, log, s2) => ((k, pyStrip resp) :: res, k :: log, s2)

/-- The existing-record probe (lines 787-795): the ticker itself, then the
lower-cased ticker, then the lower-cased company name. -/
def probeRecord (store : Store) (ticker company_name : String) : Option (Record × String) :=
  match alookup store ticker with
  | some d => some (d, ticker)
  | none =>
    match alookup store (pyLower ticker) with
    | some d => some (d, pyLower ticker)
    | none =>
      match alookup store (pyLower company_name) with
      | some d => some (d, pyLower company_name)
      | none => none

/-- `score_single_ticker`, parameterized by the oracle, the ticker lookup
table and the loaded score store.  In the save step the source re-computes
`storage_key = ticker if ticker else company_name.lower()`; `ticker` is
always set on these paths, so the merged record is saved under the ticker. -/
def score_single_ticker {σ : Type} (oracle : σ → String → String → String × σ)
    (ticker_lookup : List (String × String)) (scores_data : Store)
    (input_str : String) (s : σ) : Option ScoreResult × Store × List String × σ :=
  let input_upper := pyUpper (pyStrip input_str)
  match alookup ticker_lookup input_upper with
  | none => (none, scores_data, [], s)
  | some company_name =>
    match probeRecord scores_data input_upper company_name with
    | some (existing_data, _found_key) =>
      if (currentScores existing_data).all (fun p => truthy p.2) then
        (some ⟨input_upper, company_name, forceScores (currentScores existing_data),
               calculate_total_score (forceScores (currentScores existing_data)), true, true⟩,
         scores_data, [], s)
      else
        match fillScores oracle company_name (currentScores existing_data) s with
        | (filled, log, s1) =>
          (some ⟨input_upper, company_name, filled, calculate_total_score filled, true, false⟩,
           ainsert scores_data input_upper filled, log, s1)
    | none =>
      match fillScores oracle company_name
          (SCORE_DEFINITIONS.map (fun p => (p.1, (none : Option String)))) s with
      | (filled, log, s1) =>
        (some ⟨input_upper, company_name, filled, calculate_total_score filled, true, false⟩,
         ainsert scores_data input_upper filled, log, s1)

/-- The stored record restricted to the registry keys, in registry order. -/
def registryProjection (r : Record) : Record :=
  SCORE_DEFINITIONS.map (fun p => (p.1, (alookup r p.1).getD ""))

/-- A stored record carrying a truthy value for every registry key. -/
def exampleCompleteRecord : Record := registryKeys.map (fun k => (k, "5"))

/-- A stored record with a truthy value for every registry key except
`barriers_score`, which is absent. -/
def examplePartialRecord : Record :=
  (registryKeys.filter (fun k => k ≠ "barriers_score")).map (fun k => (k, "5"))

/-- A record in which `moat_score` is absent but a truthy legacy `score`
field is present, all other registry keys truthy. -/
def exampleLegacyScoreRecord : Record :=
  ("score", "5") :: (registryKeys.filter (fun k => k ≠ "moat_score")).map (fun k => (k, "5"))

/-- A stored record with a bookkeeping `date` field, truthy values for every
registry key except `barriers_score`, which is absent. -/
def exampleExtrasRecord : Record :=
  ("date", "2024-01-01")
    :: (registryKeys.filter (fun k => k ≠ "barriers_score")).map (fun k => (k, "5"))

/-- The record the fill branch produces for `exampleExtrasRecord` with an
oracle answering `"7"`: registry keys only. -/
def expectedFilledRecord : Record :=
  registryKeys.map (fun k => (k, if k = "barriers_score" then "7" else "5"))

/-! ## Theorems -/

theorem spec_contribution_eq_metric_contribution (record : Record) (key : String) (rev : Bool) :
    spec_contribution record key rev = metric_contribution record key rev := rfl

/-- `calculate_total_score` is the sum of the per-metric contributions. -/
theorem calculate_total_score_eq_sum (d : Record) :
    calculate_total_score d
      = (SCORE_DEFINITIONS.map (fun p => metric_contribution d p.1 p.2)).sum := by
  have h : ∀ (l : List (String × Bool)) (init : ℚ),
      l.foldl
        (fun total p =>
          let weight := (alookup SCORE_WEIGHTS p.1).getD 1
          match (match alookup d p.1 with
                 | none => some (0 : ℚ)
                 | some v => pyFloat v) with
          | none => total
          | some x => if p.2 then total + (10 - x) * weight else total + x * weight)
        init
      = init + (l.map (fun p => metric_contribution d p.1 p.2)).sum := by
    intro l
    induction l with
    | nil => intro init; simp
    | cons hd tl ih =>
      intro init
      simp only [List.foldl_cons, List.map_cons, List.sum_cons, ih]
      unfold metric_contribution
      cases hm : (match alookup d hd.1 with
                  | none => some (0 : ℚ)
                  | some v => pyFloat v) with
      | none => simp [hm]
      | some x =>
        cases hrev : hd.2 <;> simp [hm, hrev] <;> ring
  simpa using h SCORE_DEFINITIONS 0

/-- C4: Weighted direction-aware total: `calculate_total_score` is the sum, over
the registry, of `(10 - v) * weight` for reverse metrics and `v * weight`
otherwise, where `v` is the record's value parsed as a number; a
present-but-unparseable value contributes exactly zero; a reverse metric with
weight 10 and value "0" contributes 100, value "10" contributes 0, and a
non-reverse metric with weight 10 and value "7" contributes 70. -/
theorem C4_weighted_direction_aware_total :
    (∀ d : Record, calculate_total_score d
        = (SCORE_DEFINITIONS.map (fun p => spec_contribution d p.1 p.2)).sum)
    ∧ spec_contribution [("disruption_risk", "0")] "disruption_risk" true = 100
    ∧ spec_contribution [("disruption_risk", "10")] "disruption_risk" true = 0
    ∧ spec_contribution [("moat_score", "7")] "moat_score" false = 70
    ∧ (∀ (d : Record) (k : String) (rev : Bool) (v : String),
        alookup d k = some v → pyFloat v = none → spec_contribution d k rev = 0) := by
  refine ⟨?_, ?_, ?_, ?_, ?_⟩
  · intro d
    simpa [spec_contribution_eq_metric_contribution] using calculate_total_score_eq_sum d
  · unfold spec_contribution
    norm_num [show alookup [("disruption_risk", "0")] "disruption_risk" = some "0" from rfl,
              show pyFloat "0" = some 0 from rfl,
              show alookup SCORE_WEIGHTS "disruption_risk" = some 10 from rfl]
  · unfold spec_contribution
    norm_num [show alookup [("disruption_risk", "10")] "disruption_risk" = some "10" from rfl,
              show pyFloat "10" = some 10 from rfl,
              show alookup SCORE_WEIGHTS "disruption_risk" = some 10 from rfl]
  · unfold spec_contribution
    norm_num [show alookup [("moat_score", "7")] "moat_score" = some "7" from rfl,
              show pyFloat "7" = some 7 from rfl,
              show alookup SCORE_WEIGHTS "moat_score" = some 10 from rfl]
  · intro d k rev v hv hparse
    unfold spec_contribution
    simp [hv, hparse]

/-- Witness for C4: the unparseable-value conjunct applied at a concrete record. -/
theorem C4_weighted_direction_aware_total_witness :
    alookup [("disruption_risk", "n/a")] "disruption_risk" = some "n/a"
    ∧ pyFloat "n/a" = none
    ∧ spec_contribution [("disruption_risk", "n/a")] "disruption_risk" true = 0 :=
  ⟨rfl, rfl,
    C4_weighted_direction_aware_total.2.2.2.2 [("disruption_risk", "n/a")]
      "disruption_risk" true "n/a" rfl rfl⟩

/-- C9: an absent reverse registry metric defaults its raw value to 0 and so
contributes `(10 - 0) * weight = 10 * weight` to `calculate_total_score` — the
maximum possible — unlike a present-but-unparseable value, which contributes
zero; the total is the sum of the per-metric contributions. -/
theorem C9_absent_reverse_metric_contributes_max :
    (∀ (d : Record) (k : String), (k, true) ∈ SCORE_DEFINITIONS → alookup d k = none →
        metric_contribution d k true = 10 * ((alookup SCORE_WEIGHTS k).getD 1))
    ∧ (∀ (d : Record) (k : String) (v : String), alookup d k = some v → pyFloat v = none →
        metric_contribution d k true = 0)
    ∧ (∀ d : Record, calculate_total_score d
        = (SCORE_DEFINITIONS.map (fun p => metric_contribution d p.1 p.2)).sum) := by
  refine ⟨?_, ?_, calculate_total_score_eq_sum⟩
  · intro d k _hk habs
    unfold metric_contribution
    simp [habs]
  · intro d k v hv hparse
    unfold metric_contribution
    simp [hv, hparse]

/-- Witness for C9: `disruption_risk` (reverse, weight 10) absent from the empty
record contributes 100; present as unparseable `"n/a"` it contributes 0. -/
theorem C9_absent_reverse_metric_contributes_max_witness :
    metric_contribution [] "disruption_risk" true
        = 10 * ((alookup SCORE_WEIGHTS "disruption_risk").getD 1)
    ∧ metric_contribution [("disruption_risk", "n/a")] "disruption_risk" true = 0 :=
  ⟨C9_absent_reverse_metric_contributes_max.1 [] "disruption_risk" (by decide) rfl,
   C9_absent_reverse_metric_contributes_max.2.1 [("disruption_risk", "n/a")]
     "disruption_risk" "n/a" rfl rfl⟩

theorem le_rne (q : ℚ) : ⌊q⌋ ≤ rne q := by
  unfold rne
  split
  · exact le_refl _
  split
  · omega
  split <;> omega

theorem rne_le_floor_add_one (q : ℚ) : rne q ≤ ⌊q⌋ + 1 := by
  unfold rne
  split
  · omega
  split
  · omega
  split <;> omega

theorem rne_mono {x y : ℚ} (h : x ≤ y) : rne x ≤ rne y := by
  have hf : ⌊x⌋ ≤ ⌊y⌋ := Int.floor_mono h
  rcases lt_or_eq_of_le hf with hlt | heq
  · calc rne x ≤ ⌊x⌋ + 1 := rne_le_floor_add_one x
    _ ≤ ⌊y⌋ := by omega
    _ ≤ rne y := le_rne y
  · have hxy : x - (⌊x⌋ : ℚ) ≤ y - (⌊y⌋ : ℚ) := by
      have : ((⌊x⌋ : ℚ)) = ((⌊y⌋ : ℚ)) := by exact_mod_cast heq
      rw [this]
      exact sub_le_sub_right h _
    by_cases hA : x - (⌊x⌋ : ℚ) < 1 / 2
    · have hxv : rne x = ⌊x⌋ := by unfold rne; rw [if_pos hA]
      rw [hxv, heq]
      exact le_rne y
    · by_cases hB : 1 / 2 < y - (⌊y⌋ : ℚ)
      · have hyv : rne y = ⌊y⌋ + 1 := by
          unfold rne
          rw [if_neg (by linarith), if_pos hB]
        rw [hyv, ← heq]
        exact rne_le_floor_add_one x
      · have hA' : x - (⌊x⌋ : ℚ) = 1 / 2 := le_antisymm (by linarith) (not_lt.mp hA)
        have hB' : y - (⌊y⌋ : ℚ) = 1 / 2 :=
          le_antisymm (not_lt.mp hB) (by rw [← hA']; exact hxy)
        unfold rne
        rw [hA', hB', heq]

theorem fpRound_nonneg (q : ℚ) : 0 ≤ fpRound q := by
  unfold fpRound
  split
  · exact le_refl _
  · rename_i hq
    have hq' : 0 < q := lt_of_not_ge (fun h => hq (by linarith))
    have hpow : (0:ℚ) < 2 ^ ((52:ℤ) - Int.log 2 q) := zpow_pos (by norm_num) _
    have h0 : (0:ℤ) ≤ rne (q * 2 ^ ((52:ℤ) - Int.log 2 q)) := by
      have := le_rne (q * 2 ^ ((52:ℤ) - Int.log 2 q))
      have hfl : (0:ℤ) ≤ ⌊q * 2 ^ ((52:ℤ) - Int.log 2 q)⌋ :=
        Int.floor_nonneg.mpr (le_of_lt (mul_pos hq' hpow))
      omega
    have hpow2 : (0:ℚ) ≤ 2 ^ (Int.log 2 q - 52) := le_of_lt (zpow_pos (by norm_num) _)
    exact mul_nonneg (by exact_mod_cast h0) hpow2

theorem rne_cast_le_pow {z : ℚ} {n : ℕ} (h : z < 2 ^ n) : (rne z : ℚ) ≤ 2 ^ n := by
  have h1 : ⌊z⌋ < (2 : ℤ) ^ n := by
    rw [Int.floor_lt]
    exact_mod_cast h
  have h2 : rne z ≤ (2 : ℤ) ^ n := by
    have := rne_le_floor_add_one z
    omega
  exact_mod_cast h2

theorem pow_le_rne_cast {z : ℚ} {n : ℕ} (h : (2 : ℚ) ^ n ≤ z) : (2 : ℚ) ^ n ≤ (rne z : ℚ) := by
  have h1 : (2 : ℤ) ^ n ≤ ⌊z⌋ := by
    rw [Int.le_floor]
    exact_mod_cast h
  have h2 : (2 : ℤ) ^ n ≤ rne z := le_trans h1 (le_rne z)
  exact_mod_cast h2

theorem two_zpow_ofNat (n : ℕ) : (2 : ℚ) ^ (n : ℤ) = 2 ^ n := zpow_natCast 2 n

theorem fpRound_mono {x y : ℚ} (h : x ≤ y) : fpRound x ≤ fpRound y := by
  by_cases hx : x ≤ 0
  · rw [show fpRound x = 0 by unfold fpRound; rw [if_pos hx]]
    exact fpRound_nonneg y
  · have hx' : 0 < x := lt_of_not_ge hx
    have hy' : 0 < y := lt_of_lt_of_le hx' h
    have hy : ¬ y ≤ 0 := not_le.mpr hy'
    have hlog : Int.log 2 x ≤ Int.log 2 y := Int.log_mono_right hx' h
    unfold fpRound
    rw [if_neg hx, if_neg hy]
    rcases lt_or_eq_of_le hlog with hlt | heq
    · -- different binades: fpRound x ≤ 2 ^ (ex + 1) ≤ 2 ^ ey ≤ fpRound y
      set ex := Int.log 2 x with hex
      set ey := Int.log 2 y with hey
      have hup : (rne (x * 2 ^ ((52:ℤ) - ex)) : ℚ) * 2 ^ (ex - 52) ≤ 2 ^ (ex + 1) := by
        have hxlt : x < 2 ^ (ex + 1) := by
          have := Int.lt_zpow_succ_log_self (b := 2) (by norm_num) x
          simpa [hex] using this
        have hmul : x * 2 ^ ((52:ℤ) - ex) < 2 ^ (53:ℕ) := by
          have hstep : x * 2 ^ ((52:ℤ) - ex) < 2 ^ (ex + 1) * 2 ^ ((52:ℤ) - ex) :=
            mul_lt_mul_of_pos_right hxlt (zpow_pos (by norm_num) _)
          calc x * 2 ^ ((52:ℤ) - ex) < 2 ^ (ex + 1) * 2 ^ ((52:ℤ) - ex) := hstep
          _ = (2:ℚ) ^ (((53:ℕ)):ℤ) := by
              rw [← zpow_add₀ (by norm_num : (2:ℚ) ≠ 0)]
              congr 1
              push_cast
              ring
          _ = 2 ^ (53:ℕ) := two_zpow_ofNat 53
        have hrle : (rne (x * 2 ^ ((52:ℤ) - ex)) : ℚ) ≤ 2 ^ (53:ℕ) := rne_cast_le_pow hmul
        calc (rne (x * 2 ^ ((52:ℤ) - ex)) : ℚ) * 2 ^ (ex - 52)
            ≤ (2:ℚ) ^ (53:ℕ) * 2 ^ (ex - 52) :=
              mul_le_mul_of_nonneg_right hrle (le_of_lt (zpow_pos (by norm_num) _))
        _ = (2:ℚ) ^ (((53:ℕ)):ℤ) * 2 ^ (ex - 52) := by rw [two_zpow_ofNat]
        _ = 2 ^ (ex + 1) := by
              rw [← zpow_add₀ (by norm_num : (2:ℚ) ≠ 0)]
              congr 1
              push_cast
              ring
      have hlow : (2:ℚ) ^ (ey:ℤ) ≤ (rne (y * 2 ^ ((52:ℤ) - ey)) : ℚ) * 2 ^ (ey - 52) := by
        have hyge : (2:ℚ) ^ (ey:ℤ) ≤ y := by
          have := Int.zpow_log_le_self (b := 2) (by norm_num) hy'
          simpa [hey] using this
        have hmul : (2:ℚ) ^ (52:ℕ) ≤ y * 2 ^ ((52:ℤ) - ey) := by
          calc (2:ℚ) ^ (52:ℕ) = (2:ℚ) ^ (((52:ℕ)):ℤ) := (two_zpow_ofNat 52).symm
          _ = 2 ^ (ey:ℤ) * 2 ^ ((52:ℤ) - ey) := by
              rw [← zpow_add₀ (by norm_num : (2:ℚ) ≠ 0)]
              congr 1
              push_cast
              ring
          _ ≤ y * 2 ^ ((52:ℤ) - ey) :=
              mul_le_mul_of_nonneg_right hyge (le_of_lt (zpow_pos (by norm_num) _))
        have hrge : (2:ℚ) ^ (52:ℕ) ≤ (rne (y * 2 ^ ((52:ℤ) - ey)) : ℚ) := pow_le_rne_cast hmul
        calc (2:ℚ) ^ (ey:ℤ) = 2 ^ (((52:ℕ)):ℤ) * 2 ^ (ey - 52) := by
              rw [← zpow_add₀ (by norm_num : (2:ℚ) ≠ 0)]
              congr 1
              push_cast
              ring
        _ = (2:ℚ) ^ (52:ℕ) * 2 ^ (ey - 52) := by rw [two_zpow_ofNat]
        _ ≤ (rne (y * 2 ^ ((52:ℤ) - ey)) : ℚ) * 2 ^ (ey - 52) :=
              mul_le_mul_of_nonneg_right hrge (le_of_lt (zpow_pos (by norm_num) _))
      calc (rne (x * 2 ^ ((52:ℤ) - Int.log 2 x)) : ℚ) * 2 ^ (Int.log 2 x - 52)
          ≤ 2 ^ (Int.log 2 x + 1) := hup
      _ ≤ 2 ^ (Int.log 2 y : ℤ) := zpow_le_zpow_right₀ (by norm_num) (by omega)
      _ ≤ (rne (y * 2 ^ ((52:ℤ) - Int.log 2 y)) : ℚ) * 2 ^ (Int.log 2 y - 52) := hlow
    · -- same binade: monotone at a common scale
      rw [heq]
      apply mul_le_mul_of_nonneg_right _ (le_of_lt (zpow_pos (by norm_num) _))
      have : x * 2 ^ ((52:ℤ) - Int.log 2 y) ≤ y * 2 ^ ((52:ℤ) - Int.log 2 y) :=
        mul_le_mul_of_nonneg_right h (le_of_lt (zpow_pos (by norm_num) _))
      exact_mod_cast rne_mono this

theorem pyInt_mono {x y : ℚ} (hx : 0 ≤ x) (h : x ≤ y) : pyInt x ≤ pyInt y := by
  unfold pyInt
  rw [if_pos hx, if_pos (le_trans hx h)]
  exact Int.floor_mono h

/-- C6 (amended): `calculate_percentile_rank(total, population)` returns, for a
non-empty population, the Python-`int` truncation of the binary64 evaluation of
`(count of scores ≤ total / population size) * 100` — which can fall one below
the exact `floor(100 * count / size)` (see the counterexample) — and percentile
monotonicity holds: for every population of at least 3 distinct totals, a
strictly higher total yields a percentile ≥ the percentile of any lower
total. -/
theorem C6_percentile_binary64_and_monotone :
    (∀ (t : ℚ) (pop : List ℚ), pop ≠ [] →
        calculate_percentile_rank t pop
          = some (pyInt (fpMul
              (fpDiv ((pop.filter (fun s => s ≤ t)).length : ℚ) (pop.length : ℚ)) 100)))
    ∧ (∀ (pop : List ℚ) (t1 t2 : ℚ), 3 ≤ pop.dedup.length → t1 < t2 →
        ∃ p1 p2 : ℤ, calculate_percentile_rank t1 pop = some p1
          ∧ calculate_percentile_rank t2 pop = some p2 ∧ p1 ≤ p2) := by
  have hform : ∀ (t : ℚ) (pop : List ℚ), pop ≠ [] →
      calculate_percentile_rank t pop
        = some (pyInt (fpMul
            (fpDiv ((pop.filter (fun s => s ≤ t)).length : ℚ) (pop.length : ℚ)) 100)) := by
    intro t pop hne
    unfold calculate_percentile_rank
    rw [if_neg (by simpa [List.isEmpty_iff] using hne)]
  refine ⟨hform, ?_⟩
  intro pop t1 t2 hpop h12
  have hne : pop ≠ [] := by
    intro hcon
    rw [hcon] at hpop
    simp [List.dedup_nil] at hpop
  refine ⟨_, _, hform t1 pop hne, hform t2 pop hne, ?_⟩
  have hcount : (pop.filter (fun s => s ≤ t1)).length ≤ (pop.filter (fun s => s ≤ t2)).length := by
    apply List.Sublist.length_le
    apply List.monotone_filter_right
    intro a ha
    exact decide_eq_true (le_trans (of_decide_eq_true ha) (le_of_lt h12))
  have hn : (0:ℚ) < (pop.length : ℚ) := by
    have : 0 < pop.length := List.length_pos.mpr hne
    exact_mod_cast this
  have hdivle : ((pop.filter (fun s => s ≤ t1)).length : ℚ) / (pop.length : ℚ)
      ≤ ((pop.filter (fun s => s ≤ t2)).length : ℚ) / (pop.length : ℚ) := by
    have hc : ((pop.filter (fun s => s ≤ t1)).length : ℚ)
        ≤ ((pop.filter (fun s => s ≤ t2)).length : ℚ) := by exact_mod_cast hcount
    gcongr
  have hq : fpDiv ((pop.filter (fun s => s ≤ t1)).length : ℚ) (pop.length : ℚ)
      ≤ fpDiv ((pop.filter (fun s => s ≤ t2)).length : ℚ) (pop.length : ℚ) :=
    fpRound_mono hdivle
  have hm : fpMul (fpDiv ((pop.filter (fun s => s ≤ t1)).length : ℚ) (pop.length : ℚ)) 100
      ≤ fpMul (fpDiv ((pop.filter (fun s => s ≤ t2)).length : ℚ) (pop.length : ℚ)) 100 :=
    fpRound_mono (mul_le_mul_of_nonneg_right hq (by norm_num))
  exact pyInt_mono (fpRound_nonneg _) hm

/-- Helper for the C6 counterexample: the binary64 double nearest to `29/100`. -/
theorem fpRound_29_100 : fpRound (29 / 100 : ℚ) = 5224175567749775 / 18014398509481984 := by
  have hpos : (0:ℚ) < 29 / 100 := by norm_num
  have hlog : Int.log 2 ((29:ℚ) / 100) = -2 := by
    have hlo : (-2:ℤ) ≤ Int.log 2 ((29:ℚ) / 100) := by
      rw [← Int.zpow_le_iff_le_log (by norm_num) hpos]
      norm_num
    have hhi : Int.log 2 ((29:ℚ) / 100) < -1 := by
      rw [← Int.lt_zpow_iff_log_lt (by norm_num) hpos]
      norm_num
    omega
  unfold fpRound
  rw [if_neg (by norm_num), hlog]
  have harg : (29:ℚ) / 100 * 2 ^ ((52:ℤ) - (-2)) = 5224175567749775 + 9 / 25 := by
    rw [show (52:ℤ) - (-2) = ((54:ℕ) : ℤ) by norm_num, two_zpow_ofNat]
    norm_num
  rw [harg]
  have hfl : ⌊(5224175567749775:ℚ) + 9 / 25⌋ = 5224175567749775 := by
    rw [Int.floor_eq_iff]
    constructor <;> norm_num
  have hrne : rne ((5224175567749775:ℚ) + 9 / 25) = 5224175567749775 := by
    unfold rne
    rw [hfl, if_pos (by push_cast; norm_num)]
  rw [hrne, show ((-2:ℤ) - 52) = -((54:ℕ) : ℤ) by norm_num, zpow_neg, two_zpow_ofNat]
  push_cast
  norm_num

/-- Helper for the C6 counterexample: the binary64 product of that double
with 100 is strictly below 29. -/
theorem fpMul_29_100 :
    fpMul (5224175567749775 / 18014398509481984 : ℚ) 100
      = 8162774324609023 / 281474976710656 := by
  have harg : (5224175567749775:ℚ) / 18014398509481984 * 100
      = 130604389193744375 / 4503599627370496 := by norm_num
  have hpos : (0:ℚ) < 130604389193744375 / 4503599627370496 := by norm_num
  have hlog : Int.log 2 ((130604389193744375:ℚ) / 4503599627370496) = 4 := by
    have hlo : (4:ℤ) ≤ Int.log 2 ((130604389193744375:ℚ) / 4503599627370496) := by
      rw [← Int.zpow_le_iff_le_log (by norm_num) hpos]
      norm_num
    have hhi : Int.log 2 ((130604389193744375:ℚ) / 4503599627370496) < 5 := by
      rw [← Int.lt_zpow_iff_log_lt (by norm_num) hpos]
      norm_num
    omega
  unfold fpMul fpRound
  rw [harg, if_neg (by norm_num), hlog]
  have harg2 : (130604389193744375:ℚ) / 4503599627370496 * 2 ^ ((52:ℤ) - 4)
      = 8162774324609023 + 7 / 16 := by
    rw [show (52:ℤ) - 4 = ((48:ℕ) : ℤ) by norm_num, two_zpow_ofNat]
    norm_num
  rw [harg2]
  have hfl : ⌊(8162774324609023:ℚ) + 7 / 16⌋ = 8162774324609023 := by
    rw [Int.floor_eq_iff]
    constructor <;> norm_num
  have hrne : rne ((8162774324609023:ℚ) + 7 / 16) = 8162774324609023 := by
    unfold rne
    rw [hfl, if_pos (by push_cast; norm_num)]
  rw [hrne, show ((4:ℤ) - 52) = -((48:ℕ) : ℤ) by norm_num, zpow_neg, two_zpow_ofNat]
  push_cast
  norm_num

/-- Counterexample to C6 as stated: with a population of 100 totals of which
exactly 29 are ≤ the queried total, the code returns 28, while
`floor(100 * 29 / 100) = 29`: the binary64 evaluation of
`(29 / 100) * 100` is `28.999999999999996`, truncated by `int(...)` to 28. -/
theorem C6_percentile_floor_formula_counterexample :
    calculate_percentile_rank 0 (List.replicate 29 (0:ℚ) ++ List.replicate 71 1) = some 28
    ∧ ((List.replicate 29 (0:ℚ) ++ List.replicate 71 1).filter (fun s => s ≤ 0)).length = 29
    ∧ (List.replicate 29 (0:ℚ) ++ List.replicate 71 1).length = 100
    ∧ ⌊(100 * (29:ℚ)) / 100⌋ = 29
    ∧ (28 : ℤ) ≠ 29 := by
  have hk : ((List.replicate 29 (0:ℚ) ++ List.replicate 71 1).filter (fun s => s ≤ 0)).length
      = 29 := by
    rw [List.filter_append,
      List.filter_replicate_of_pos (by norm_num),
      List.filter_replicate_of_neg (by norm_num)]
    simp
  have hn : (List.replicate 29 (0:ℚ) ++ List.replicate 71 1).length = 100 := by simp
  refine ⟨?_, hk, hn, by norm_num, by norm_num⟩
  unfold calculate_percentile_rank
  rw [if_neg (by simp), hk, hn]
  show some (pyInt (fpMul (fpDiv ((29:ℕ) : ℚ) ((100:ℕ) : ℚ)) 100)) = some 28
  have hc1 : ((29:ℕ) : ℚ) = 29 := by norm_num
  have hc2 : ((100:ℕ) : ℚ) = 100 := by norm_num
  rw [hc1, hc2]
  have hdiv : fpDiv (29:ℚ) 100 = 5224175567749775 / 18014398509481984 := fpRound_29_100
  rw [hdiv, fpMul_29_100]
  unfold pyInt
  rw [if_pos (by norm_num)]
  have hfloor : ⌊(8162774324609023:ℚ) / 281474976710656⌋ = 28 := by
    rw [Int.floor_eq_iff]
    constructor <;> norm_num
  rw [hfloor]

/-- Witness for C6: the population `[0, 1, 2]` of three distinct totals with
totals `0 < 1`. -/
theorem C6_percentile_binary64_and_monotone_witness :
    ∃ p1 p2 : ℤ, calculate_percentile_rank 0 [0, 1, 2] = some p1
      ∧ calculate_percentile_rank 1 [0, 1, 2] = some p2 ∧ p1 ≤ p2 :=
  C6_percentile_binary64_and_monotone.2 [0, 1, 2] 0 1
    (by rw [List.dedup_eq_self.2 (by norm_num)]; norm_num) (by norm_num)

/-- C7 (amended): a trimmed, upper-cased input of 1 to **5** (not 6) alphabetic
characters is treated as a ticker candidate; when present in the reference
ticker table it resolves to that ticker and its mapped company name. -/
theorem C7_ticker_candidate_heuristic (tbl : List (String × String)) (input name : String)
    (h1 : 1 ≤ (pyUpper (pyStrip input)).data.length)
    (h2 : (pyUpper (pyStrip input)).data.length ≤ 5)
    (h3 : pyIsAlpha (pyUpper (pyStrip input)) = true)
    (h4 : alookup tbl (pyUpper (pyStrip input)) = some name) :
    resolve_to_company_name tbl input = (name, some (pyUpper (pyStrip input))) := by
  unfold resolve_to_company_name
  rw [if_pos ⟨h1, h2, h3⟩, h4]

/-- Witness for C7: `" aaplx "` (5 letters once stripped and upper-cased)
resolves through a table binding `"AAPLX"`. -/
theorem C7_ticker_candidate_heuristic_witness :
    resolve_to_company_name [("AAPLX", "Apple Extended")] " aaplx "
      = ("Apple Extended", some "AAPLX") := by
  have h := C7_ticker_candidate_heuristic [("AAPLX", "Apple Extended")] " aaplx "
    "Apple Extended" (by decide) (by decide) (by decide) (by decide)
  simpa using h

/-- Counterexample to C7 as stated: a 6-letter alphabetic ticker present in
the reference table does **not** resolve — the heuristic accepts only 1 to 5
characters (`len(input_upper) <= 5` in the source), so `"abcdef"` falls
through to the free-form-name branch. -/
theorem C7_six_letter_ticker_counterexample :
    resolve_to_company_name [("ABCDEF", "Abcdef Corp")] "abcdef" = ("abcdef", none)
    ∧ (pyUpper (pyStrip "abcdef")).data.length = 6
    ∧ pyIsAlpha (pyUpper (pyStrip "abcdef")) = true
    ∧ alookup [("ABCDEF", "Abcdef Corp")] (pyUpper (pyStrip "abcdef")) = some "Abcdef Corp"
    ∧ ("abcdef", (none : Option String)) ≠ ("Abcdef Corp", some "ABCDEF") := by
  refine ⟨?_, by decide, by decide, by decide, by decide⟩
  decide

theorem char_toLower_idem (c : Char) : c.toLower.toLower = c.toLower := by
  unfold Char.toLower
  by_cases h : c.toNat ≥ 65 ∧ c.toNat ≤ 90
  · rw [if_pos h]
    have hv : (c.toNat + 32).isValidChar := Or.inl (by omega)
    have ht : (Char.ofNat (c.toNat + 32)).toNat = c.toNat + 32 := by
      unfold Char.ofNat
      rw [dif_pos hv]
      unfold Char.ofNatAux Char.toNat
      simp [UInt32.toNat]
    rw [if_neg (by omega)]
  · rw [if_neg h, if_neg h]

theorem pyLower_idem (s : String) : pyLower (pyLower s) = pyLower s := by
  unfold pyLower
  rw [List.map_map]
  congr 1
  exact List.map_congr_left (fun c _ => char_toLower_idem c)

theorem alookup_none_iff {α : Type} (l : List (String × α)) (k : String) :
    alookup l k = none ↔ k ∉ l.map Prod.fst := by
  induction l with
  | nil => simp [alookup]
  | cons p tl ih =>
    by_cases h : p.1 = k
    · unfold alookup
      rw [List.find?_cons_of_pos _ (by simpa using h)]
      simp [h]
    · unfold alookup at ih ⊢
      rw [List.find?_cons_of_neg _ (by simpa using h)]
      simp only [List.map_cons, List.mem_cons]
      rw [ih]
      constructor
      · intro hk hcon
        rcases hcon with hcon | hcon
        · exact h hcon.symm
        · exact hk hcon
      · intro hk
        exact fun hcon => hk (Or.inr hcon)

/-- Replacing an existing key's value leaves the key list unchanged. -/
theorem ainsert_keys_of_mem {α : Type} (l : List (String × α)) (k : String) (v : α)
    (h : amem l k = true) : (ainsert l k v).map Prod.fst = l.map Prod.fst := by
  unfold ainsert
  rw [if_pos h, List.map_map]
  apply List.map_congr_left
  intro p _
  by_cases hp : p.1 = k
  · simp [hp]
  · simp [hp]

theorem migrate_step_good {acc : Store} (p : String × Record) (h : StoreKeysGood acc) :
    StoreKeysGood (migrate_step acc p) := by
  obtain ⟨hnd, hfix⟩ := h
  unfold migrate_step
  rcases hl : alookup acc (pyLower p.1) with _ | existing
  · simp only [hl]
    constructor
    · rw [List.map_append]
      simp only [List.map_cons, List.map_nil]
      rw [List.nodup_append]
      refine ⟨hnd, List.nodup_singleton _, ?_⟩
      intro a ha hb
      simp only [List.mem_singleton] at hb
      subst hb
      exact (alookup_none_iff acc (pyLower p.1)).mp hl ha
    · intro k hk
      rw [List.map_append] at hk
      rcases List.mem_append.mp hk with hk | hk
      · exact hfix k hk
      · simp only [List.map_cons, List.map_nil, List.mem_singleton] at hk
        subst hk
        exact pyLower_idem p.1
  · have hmem : amem acc (pyLower p.1) = true := by
      by_contra hcon
      have : alookup acc (pyLower p.1) = none := by
        rw [alookup_none_iff]
        intro hm
        unfold amem at hcon
        apply hcon
        rw [List.any_eq_true]
        rcases List.mem_map.mp hm with ⟨q, hq, hqk⟩
        exact ⟨q, hq, by simpa using hqk⟩
      rw [this] at hl
      cases hl
    have hins : StoreKeysGood (ainsert acc (pyLower p.1) p.2) := by
      constructor
      · rw [ainsert_keys_of_mem acc _ _ hmem]
        exact hnd
      · rw [ainsert_keys_of_mem acc _ _ hmem]
        exact hfix
    simp only [hl]
    split
    · split
      · exact hins
      · exact ⟨hnd, hfix⟩
    · split
      · exact hins
      · exact ⟨hnd, hfix⟩

theorem migrate_good (s : Store) : StoreKeysGood (migrate_scores_to_lowercase s) := by
  unfold migrate_scores_to_lowercase
  have h : ∀ (l : List (String × Record)) (acc : Store), StoreKeysGood acc →
      StoreKeysGood (l.foldl migrate_step acc) := by
    intro l
    induction l with
    | nil => intro acc h; exact h
    | cons p tl ih =>
      intro acc h
      exact ih _ (migrate_step_good p h)
  exact h s [] ⟨List.nodup_nil, by intro k hk; cases hk⟩

/-- A store whose keys are distinct and already lowercase is a fixed point of
the migration. -/
theorem migrate_fixed {s : Store} (h : StoreKeysGood s) : migrate_scores_to_lowercase s = s := by
  unfold migrate_scores_to_lowercase
  obtain ⟨hnd, hfix⟩ := h
  suffices hgen : ∀ (l : List (String × Record)) (acc : Store),
      ((acc.map Prod.fst) ++ (l.map Prod.fst)).Nodup →
      (∀ k ∈ l.map Prod.fst, pyLower k = k) →
      l.foldl migrate_step acc = acc ++ l by
    simpa using hgen s [] (by simpa using hnd) hfix
  intro l
  induction l with
  | nil => intro acc _ _; simp
  | cons p tl ih =>
    intro acc hnd2 hfix2
    have hkfix : pyLower p.1 = p.1 := hfix2 p.1 (by simp)
    have hnotin : p.1 ∉ acc.map Prod.fst := by
      rw [List.nodup_append] at hnd2
      intro hcon
      exact hnd2.2.2 hcon (by simp)
    have hstep : migrate_step acc p = acc ++ [(p.1, p.2)] := by
      unfold migrate_step
      simp only [hkfix, (alookup_none_iff acc p.1).mpr hnotin]
    rw [List.foldl_cons, hstep, ih (acc ++ [(p.1, p.2)])]
    · simp
    · rw [List.map_append]
      simp only [List.map_cons, List.map_nil]
      have : (acc.map Prod.fst ++ [p.1]) ++ tl.map Prod.fst
          = acc.map Prod.fst ++ (p.1 :: tl.map Prod.fst) := by
        rw [List.append_assoc]
        rfl
      rw [this]
      simpa using hnd2
    · intro k hk
      exact hfix2 k (by simp [hk])

/-- C8: Migration idempotence: applying `migrate_scores_to_lowercase` twice
produces exactly the same store as applying it once (the first pass leaves
every key lowercase and distinct, so the second pass collapses nothing). -/
theorem C8_migration_idempotent (s : Store) :
    migrate_scores_to_lowercase (migrate_scores_to_lowercase s)
      = migrate_scores_to_lowercase s :=
  migrate_fixed (migrate_good s)

theorem merge_perm {α σ : Type} (cmp : σ → α → α → Int × σ) :
    ∀ (s : σ) (l r : List α), List.Perm (merge cmp s l r).1 (l ++ r) := by
  intro s l r
  induction s, l, r using merge.induct cmp with
  | case1 s right => simp [merge]
  | case2 s a left => simp [merge]
  | case3 s a left b right comparison s1 hcmp hle res s2 n hrec ih =>
    rw [merge]
    simp only [hcmp, if_pos hle, hrec]
    rw [hrec] at ih
    exact List.Perm.cons a ih
  | case4 s a left b right comparison s1 hcmp hle res s2 n hrec ih =>
    rw [merge]
    simp only [hcmp, if_neg hle, hrec]
    rw [hrec] at ih
    exact List.Perm.trans (List.Perm.cons b ih) List.perm_middle.symm

theorem merge_count {α σ : Type} (cmp : σ → α → α → Int × σ) :
    ∀ (s : σ) (l r : List α), (merge cmp s l r).2.2 ≤ l.length + r.length := by
  intro s l r
  induction s, l, r using merge.induct cmp with
  | case1 s right => simp [merge]
  | case2 s a left => simp [merge]
  | case3 s a left b right comparison s1 hcmp hle res s2 n hrec ih =>
    rw [merge]
    simp only [hcmp, if_pos hle, hrec]
    rw [hrec] at ih
    simp only [List.length_cons] at ih ⊢
    omega
  | case4 s a left b right comparison s1 hcmp hle res s2 n hrec ih =>
    rw [merge]
    simp only [hcmp, if_neg hle, hrec]
    rw [hrec] at ih
    simp only [List.length_cons] at ih ⊢
    omega

theorem merge_sort_perm {α σ : Type} (cmp : σ → α → α → Int × σ) :
    ∀ (s : σ) (l : List α), List.Perm (merge_sort_companies cmp s l).1 l := by
  intro s l
  induction s, l using merge_sort_companies.induct cmp with
  | case1 s companies h =>
    rw [merge_sort_companies, if_pos h]
  | case2 s companies h lres s1 n1 hL rres s2 n2 hR mres s3 n3 hM ihL ihR =>
    rw [merge_sort_companies, if_neg h]
    simp only [hL, hR, hM]
    rw [hL] at ihL
    rw [hR] at ihR
    have hmerge := merge_perm cmp s2 lres rres
    rw [hM] at hmerge
    exact (hmerge.trans (ihL.append ihR)).trans
      (by rw [List.take_append_drop])

theorem merge_sort_count {α σ : Type} (cmp : σ → α → α → Int × σ) :
    ∀ (s : σ) (l : List α),
      (merge_sort_companies cmp s l).2.2 ≤ l.length * Nat.clog 2 l.length := by
  intro s l
  induction s, l using merge_sort_companies.induct cmp with
  | case1 s companies h =>
    rw [merge_sort_companies, if_pos h]
    simp
  | case2 s companies h lres s1 n1 hL rres s2 n2 hR mres s3 n3 hM ihL ihR =>
    rw [merge_sort_companies, if_neg h]
    simp only [hL, hR, hM]
    rw [hL] at ihL
    rw [hR] at ihR
    have hN : 2 ≤ companies.length := by omega
    have ha : (companies.take (companies.length / 2)).length = companies.length / 2 := by
      simp only [List.length_take]
      omega
    have hb : (companies.drop (companies.length / 2)).length
        = companies.length - companies.length / 2 := by
      simp only [List.length_drop]
    rw [ha] at ihL
    rw [hb] at ihR
    -- the merged call count is bounded by the sum of the halves' lengths
    have hmerge := merge_count cmp s2 lres rres
    rw [hM] at hmerge
    have hllen : lres.length = companies.length / 2 := by
      have := (merge_sort_perm cmp s (companies.take (companies.length / 2))).length_eq
      rw [hL] at this
      simpa [ha] using this
    have hrlen : rres.length = companies.length - companies.length / 2 := by
      have := (merge_sort_perm cmp s1 (companies.drop (companies.length / 2))).length_eq
      rw [hR] at this
      simpa [hb] using this
    rw [hllen, hrlen] at hmerge
    set N := companies.length with hNdef
    set a := N / 2 with hadef
    set b := N - N / 2 with hbdef
    have ihL' : n1 ≤ a * Nat.clog 2 a := by simpa using ihL
    have ihR' : n2 ≤ b * Nat.clog 2 b := by simpa using ihR
    have hmerge' : n3 ≤ a + b := by simpa using hmerge
    show n1 + n2 + n3 ≤ N * Nat.clog 2 N
    have hclog : Nat.clog 2 N = Nat.clog 2 b + 1 := by
      rw [Nat.clog_of_two_le one_lt_two hN]
      congr 2
      omega
    have hca : Nat.clog 2 a ≤ Nat.clog 2 b := Nat.clog_mono_right 2 (by omega)
    have h1 : n1 ≤ a * Nat.clog 2 b :=
      le_trans ihL' (Nat.mul_le_mul_left a hca)
    have hsum : a * Nat.clog 2 b + b * Nat.clog 2 b = (a + b) * Nat.clog 2 b :=
      (Nat.add_mul a b (Nat.clog 2 b)).symm
    have hab : a + b = N := by omega
    calc n1 + n2 + n3 ≤ a * Nat.clog 2 b + b * Nat.clog 2 b + (a + b) := by
          omega
    _ = N * Nat.clog 2 b + N := by rw [hsum, hab]
    _ = N * (Nat.clog 2 b + 1) := by ring
    _ = N * Nat.clog 2 N := by rw [hclog]

theorem truthOracle_le {α : Type} [LinearOrder α] {s s1 : Unit} {a b : α} {c : Int}
    (hcmp : truthOracle s a b = (c, s1)) (hle : c ≤ 0) : a ≤ b := by
  unfold truthOracle at hcmp
  have hc : c = if a < b then -1 else if b < a then 1 else 0 := by
    have := congrArg Prod.fst hcmp
    simpa using this.symm
  by_contra hcon
  have hba : b < a := lt_of_not_ge (fun hab => hcon hab)
  rw [if_neg (not_lt.mpr (le_of_lt hba)), if_pos hba] at hc
  omega

theorem truthOracle_gt {α : Type} [LinearOrder α] {s s1 : Unit} {a b : α} {c : Int}
    (hcmp : truthOracle s a b = (c, s1)) (hgt : ¬ c ≤ 0) : b < a := by
  unfold truthOracle at hcmp
  have hc : c = if a < b then -1 else if b < a then 1 else 0 := by
    have := congrArg Prod.fst hcmp
    simpa using this.symm
  by_contra hcon
  rcases lt_trichotomy a b with h | h | h
  · rw [if_pos h] at hc
    omega
  · rw [if_neg (by rw [h]; exact lt_irrefl b), if_neg (by rw [h]; exact lt_irrefl b)] at hc
    omega
  · exact hcon h

theorem merge_sorted {α : Type} [LinearOrder α] :
    ∀ (s : Unit) (l r : List α), l.Pairwise (· ≤ ·) → r.Pairwise (· ≤ ·) →
      (merge truthOracle s l r).1.Pairwise (· ≤ ·) := by
  intro s l r
  induction s, l, r using merge.induct (truthOracle (α := α)) with
  | case1 s right =>
    intro _ hr
    simpa [merge] using hr
  | case2 s a left =>
    intro hl _
    simpa [merge] using hl
  | case3 s a left b right comparison s1 hcmp hle res s2 n hrec ih =>
    intro hl hr
    rw [merge]
    simp only [hcmp, if_pos hle, hrec]
    have hab : a ≤ b := truthOracle_le hcmp hle
    obtain ⟨hahead, hltail⟩ := List.pairwise_cons.mp hl
    obtain ⟨hbhead, hrtail⟩ := List.pairwise_cons.mp hr
    have hresSorted : res.Pairwise (· ≤ ·) := by
      have := ih hltail hr
      rw [hrec] at this
      simpa using this
    refine List.pairwise_cons.mpr ⟨?_, hresSorted⟩
    intro x hx
    have hmem : x ∈ left ++ b :: right := by
      have hperm := merge_perm (truthOracle (α := α)) s1 left (b :: right)
      rw [hrec] at hperm
      exact hperm.mem_iff.mp (by simpa using hx)
    rcases List.mem_append.mp hmem with hx1 | hx2
    · exact hahead x hx1
    · rcases List.mem_cons.mp hx2 with hxb | hxr
      · rw [hxb]
        exact hab
      · exact le_trans hab (hbhead x hxr)
  | case4 s a left b right comparison s1 hcmp hle res s2 n hrec ih =>
    intro hl hr
    rw [merge]
    simp only [hcmp, if_neg hle, hrec]
    have hba : b < a := truthOracle_gt hcmp hle
    obtain ⟨hahead, hltail⟩ := List.pairwise_cons.mp hl
    obtain ⟨hbhead, hrtail⟩ := List.pairwise_cons.mp hr
    have hresSorted : res.Pairwise (· ≤ ·) := by
      have := ih hl hrtail
      rw [hrec] at this
      simpa using this
    refine List.pairwise_cons.mpr ⟨?_, hresSorted⟩
    intro x hx
    have hmem : x ∈ (a :: left) ++ right := by
      have hperm := merge_perm (truthOracle (α := α)) s1 (a :: left) right
      rw [hrec] at hperm
      exact hperm.mem_iff.mp (by simpa using hx)
    rcases List.mem_append.mp hmem with hx1 | hx2
    · rcases List.mem_cons.mp hx1 with hxa | hxl
      · rw [hxa]
        exact le_of_lt hba
      · exact le_trans (le_of_lt hba) (hahead x hxl)
    · exact hbhead x hx2

theorem merge_sort_sorted {α : Type} [LinearOrder α] :
    ∀ (s : Unit) (l : List α),
      (merge_sort_companies truthOracle s l).1.Pairwise (· ≤ ·) := by
  intro s l
  induction s, l using merge_sort_companies.induct (truthOracle (α := α)) with
  | case1 s companies h =>
    rw [merge_sort_companies, if_pos h]
    rcases companies with _ | ⟨a, _ | ⟨b, t⟩⟩
    · exact List.Pairwise.nil
    · simp
    · simp at h
  | case2 s companies h lres s1 n1 hL rres s2 n2 hR mres s3 n3 hM ihL ihR =>
    rw [merge_sort_companies, if_neg h]
    simp only [hL, hR, hM]
    rw [hL] at ihL
    rw [hR] at ihR
    have := merge_sorted s2 lres rres (by simpa using ihL) (by simpa using ihR)
    rw [hM] at this
    simpa using this

/-- C10: for every input list and every oracle behaviour (the comparison
function is an arbitrary state-passing function into the comparison integers,
covering ordinary answers, unparseable responses and errors, which the source
maps to a default `-1`), `merge_sort_companies` returns a permutation of its
input, in particular of the same length. -/
theorem C10_merge_sort_permutation {α σ : Type} (cmp : σ → α → α → Int × σ)
    (s : σ) (l : List α) :
    List.Perm (merge_sort_companies cmp s l).1 l
    ∧ (merge_sort_companies cmp s l).1.length = l.length :=
  ⟨merge_sort_perm cmp s l, (merge_sort_perm cmp s l).length_eq⟩

/-- C5: with an oracle that always answers according to a ground-truth strict
total order (`truthOracle`), `merge_sort_companies` returns exactly the
ground-truth order (strongest first) and issues at most
`n * ⌈log₂ n⌉ = n * Nat.clog 2 n` comparison calls. -/
theorem C5_ranker_correct_and_call_bound {α : Type} [LinearOrder α]
    (l groundTruth : List α)
    (hperm : List.Perm groundTruth l)
    (hsorted : groundTruth.Pairwise (· < ·)) :
    (merge_sort_companies (truthOracle (α := α)) () l).1 = groundTruth
    ∧ (merge_sort_companies (truthOracle (α := α)) () l).2.2
        ≤ l.length * Nat.clog 2 l.length := by
  constructor
  · have hout : List.Perm (merge_sort_companies (truthOracle (α := α)) () l).1 groundTruth :=
      (merge_sort_perm _ () l).trans hperm.symm
    exact List.eq_of_perm_of_sorted hout (merge_sort_sorted () l)
      (hsorted.imp le_of_lt)
  · exact merge_sort_count _ () l

/-- Witness for C5: ten distinct entities ranked by a truthful oracle come
back in exactly the ground-truth order with at most `10 * ⌈log₂ 10⌉ = 40`
comparison calls. -/
theorem C5_ranker_correct_and_call_bound_witness :
    (merge_sort_companies (truthOracle (α := ℕ)) () [0, 1, 2, 3, 4, 5, 6, 7, 8, 9]).1
        = [0, 1, 2, 3, 4, 5, 6, 7, 8, 9]
    ∧ (merge_sort_companies (truthOracle (α := ℕ)) () [0, 1, 2, 3, 4, 5, 6, 7, 8, 9]).2.2
        ≤ 40 := by
  have h := C5_ranker_correct_and_call_bound [0, 1, 2, 3, 4, 5, 6, 7, 8, 9]
    [0, 1, 2, 3, 4, 5, 6, 7, 8, 9] (List.Perm.refl _) (by decide)
  refine ⟨h.1, le_trans h.2 ?_⟩
  have h2 : Nat.clog 2 2 = 1 := Nat.clog_eq_one (le_refl 2) (le_refl 2)
  have h3 : Nat.clog 2 3 = 2 := by
    rw [Nat.clog_of_two_le one_lt_two (by norm_num)]
    norm_num [h2]
  have h5 : Nat.clog 2 5 = 3 := by
    rw [Nat.clog_of_two_le one_lt_two (by norm_num)]
    norm_num [h3]
  have h10 : Nat.clog 2 10 = 4 := by
    rw [Nat.clog_of_two_le one_lt_two (by norm_num)]
    norm_num [h5]
  simp [h10]

theorem alookup_cons_self {α : Type} (k : String) (v : α) (t : List (String × α)) :
    alookup ((k, v) :: t) k = some v := by
  unfold alookup
  rw [List.find?_cons_of_pos _ (by simp)]

theorem alookup_cons_ne {α : Type} {k k2 : String} (v : α) (t : List (String × α))
    (h : k2 ≠ k) : alookup ((k, v) :: t) k2 = alookup t k2 := by
  unfold alookup
  rw [List.find?_cons_of_neg _ (by simpa using fun he => h he.symm)]

theorem fillScores_keys {σ : Type} (oracle : σ → String → String → String × σ)
    (company_name : String) :
    ∀ (l : List (String × Option String)) (s : σ),
      (fillScores oracle company_name l s).1.map Prod.fst = l.map Prod.fst := by
  intro l
  induction l with
  | nil => intro s; simp [fillScores]
  | cons p rest ih =>
    intro s
    rcases p with ⟨k, v⟩
    rw [fillScores]
    by_cases hv : truthy v = true
    · rw [if_pos hv]
      rcases hres : fillScores oracle company_name rest s with ⟨res, log, s1⟩
      simp only [hres]
      have := ih s
      rw [hres] at this
      simpa using this
    · rw [if_neg hv]
      rcases horc : oracle s company_name k with ⟨resp, s1⟩
      rcases hres : fillScores oracle company_name rest s1 with ⟨res, log, s2⟩
      simp only [horc, hres]
      have := ih s1
      rw [hres] at this
      simpa using this

theorem fillScores_log {σ : Type} (oracle : σ → String → String → String × σ)
    (company_name : String) :
    ∀ (l : List (String × Option String)) (s : σ),
      (fillScores oracle company_name l s).2.1
        = (l.filter (fun p => !(truthy p.2))).map Prod.fst := by
  intro l
  induction l with
  | nil => intro s; simp [fillScores]
  | cons p rest ih =>
    intro s
    rcases p with ⟨k, v⟩
    rw [fillScores]
    by_cases hv : truthy v = true
    · rw [if_pos hv]
      rcases hres : fillScores oracle company_name rest s with ⟨res, log, s1⟩
      simp only [hres]
      have := ih s
      rw [hres] at this
      rw [List.filter_cons_of_neg (by simpa using hv)]
      simpa using this
    · rw [if_neg hv]
      rcases horc : oracle s company_name k with ⟨resp, s1⟩
      rcases hres : fillScores oracle company_name rest s1 with ⟨res, log, s2⟩
      simp only [horc, hres]
      have := ih s1
      rw [hres] at this
      rw [List.filter_cons_of_pos (by simpa using hv)]
      simpa using this

theorem fillScores_lookup_truthy {σ : Type} (oracle : σ → String → String → String × σ)
    (company_name : String) :
    ∀ (l : List (String × Option String)) (s : σ) (k : String) (v : Option String),
      (l.map Prod.fst).Nodup → (k, v) ∈ l → truthy v = true →
      alookup (fillScores oracle company_name l s).1 k = some (v.getD "") := by
  intro l
  induction l with
  | nil => intro s k v _ hmem; cases hmem
  | cons p rest ih =>
    intro s k v hnd hmem htr
    rcases p with ⟨k0, v0⟩
    simp only [List.map_cons, List.nodup_cons] at hnd
    rw [fillScores]
    by_cases hv0 : truthy v0 = true
    · rw [if_pos hv0]
      rcases hres : fillScores oracle company_name rest s with ⟨res, log, s1⟩
      simp only [hres]
      rcases List.mem_cons.mp hmem with heq | hmemrest
      · have hk : k = k0 := congrArg Prod.fst heq
        have hv : v = v0 := congrArg Prod.snd heq
        subst hk
        subst hv
        exact alookup_cons_self k (v.getD "") res
      · have hkne : k ≠ k0 := by
          intro hcon
          subst hcon
          exact hnd.1 (by simpa using List.mem_map_of_mem Prod.fst hmemrest)
        rw [alookup_cons_ne _ _ hkne]
        have := ih s k v hnd.2 hmemrest htr
        rw [hres] at this
        exact this
    · rw [if_neg hv0]
      rcases horc : oracle s company_name k0 with ⟨resp, s1⟩
      rcases hres : fillScores oracle company_name rest s1 with ⟨res, log, s2⟩
      simp only [horc, hres]
      have hkne : k ≠ k0 := by
        intro hcon
        subst hcon
        rcases List.mem_cons.mp hmem with heq | hmemrest
        · have hv : v = v0 := congrArg Prod.snd heq
          rw [hv] at htr
          exact hv0 htr
        · exact hnd.1 (by simpa using List.mem_map_of_mem Prod.fst hmemrest)
      rw [alookup_cons_ne _ _ hkne]
      have hmemrest : (k, v) ∈ rest := by
        rcases List.mem_cons.mp hmem with heq | hmemrest
        · exact absurd (congrArg Prod.fst heq) hkne
        · exact hmemrest
      have := ih s1 k v hnd.2 hmemrest htr
      rw [hres] at this
      exact this

theorem effectiveValue_of_truthy (r : Record) (k : String)
    (h : truthy (alookup r k) = true) : effectiveValue r k = alookup r k := by
  unfold effectiveValue
  split
  · cases hv : alookup r k with
    | none =>
      rw [hv] at h
      simp [truthy] at h
    | some v => rfl
  · rfl

theorem currentScores_of_complete (r : Record)
    (h : ∀ k ∈ registryKeys, truthy (alookup r k) = true) :
    currentScores r = SCORE_DEFINITIONS.map (fun p => (p.1, alookup r p.1)) := by
  unfold currentScores
  apply List.map_congr_left
  intro p hp
  rw [effectiveValue_of_truthy r p.1 (h p.1 (List.mem_map_of_mem Prod.fst hp))]

/-- C1: Idempotent acquisition: when the stored record found for a resolved
identity has a truthy value for every registry metric key, `score_single_ticker`
returns that record (its registry projection) unchanged with
`already_scored = True`, leaves the store untouched, and makes zero oracle
calls; consequently an immediately repeated call returns the identical result
and again makes zero oracle calls. -/
theorem C1_idempotent_acquisition {σ : Type} (oracle : σ → String → String → String × σ)
    (tbl : List (String × String)) (store : Store) (input : String) (s : σ)
    (company : String) (r : Record) (k0 : String)
    (hres : alookup tbl (pyUpper (pyStrip input)) = some company)
    (hprobe : probeRecord store (pyUpper (pyStrip input)) company = some (r, k0))
    (hcomplete : ∀ k ∈ registryKeys, truthy (alookup r k) = true) :
    score_single_ticker oracle tbl store input s
      = (some ⟨pyUpper (pyStrip input), company, registryProjection r,
               calculate_total_score (registryProjection r), true, true⟩, store, [], s)
    ∧ score_single_ticker oracle tbl
        (score_single_ticker oracle tbl store input s).2.1 input
        (score_single_ticker oracle tbl store input s).2.2.2
      = score_single_ticker oracle tbl store input s := by
  have hall : (currentScores r).all (fun p => truthy p.2) = true := by
    rw [List.all_eq_true]
    intro p hp
    rcases List.mem_map.mp hp with ⟨q, hq, hpq⟩
    subst hpq
    simp only []
    rw [effectiveValue_of_truthy r q.1 (hcomplete q.1 (List.mem_map_of_mem Prod.fst hq))]
    exact hcomplete q.1 (List.mem_map_of_mem Prod.fst hq)
  have hfs : forceScores (currentScores r) = registryProjection r := by
    rw [currentScores_of_complete r hcomplete]
    unfold forceScores registryProjection
    rw [List.map_map]
    rfl
  have hmain : score_single_ticker oracle tbl store input s
      = (some ⟨pyUpper (pyStrip input), company, registryProjection r,
               calculate_total_score (registryProjection r), true, true⟩, store, [], s) := by
    unfold score_single_ticker
    simp only [hres, hprobe]
    rw [if_pos hall, hfs]
  exact ⟨hmain, by rw [hmain]; exact hmain⟩

/-- Witness for C1: a complete record for `AAPL` is returned unchanged, the
store is untouched, and no oracle call is logged — twice in a row. -/
theorem C1_idempotent_acquisition_witness :
    score_single_ticker (fun (s : Unit) _ _ => ("7", s)) [("AAPL", "Apple Inc")]
        [("AAPL", exampleCompleteRecord)] "AAPL" ()
      = (some ⟨pyUpper (pyStrip "AAPL"), "Apple Inc", registryProjection exampleCompleteRecord,
               calculate_total_score (registryProjection exampleCompleteRecord), true, true⟩,
         [("AAPL", exampleCompleteRecord)], [], ())
    ∧ score_single_ticker (fun (s : Unit) _ _ => ("7", s)) [("AAPL", "Apple Inc")]
        (score_single_ticker (fun (s : Unit) _ _ => ("7", s)) [("AAPL", "Apple Inc")]
          [("AAPL", exampleCompleteRecord)] "AAPL" ()).2.1 "AAPL"
        (score_single_ticker (fun (s : Unit) _ _ => ("7", s)) [("AAPL", "Apple Inc")]
          [("AAPL", exampleCompleteRecord)] "AAPL" ()).2.2.2
      = score_single_ticker (fun (s : Unit) _ _ => ("7", s)) [("AAPL", "Apple Inc")]
          [("AAPL", exampleCompleteRecord)] "AAPL" () :=
  C1_idempotent_acquisition (fun (s : Unit) _ _ => ("7", s)) [("AAPL", "Apple Inc")]
    [("AAPL", exampleCompleteRecord)] "AAPL" () "Apple Inc" exampleCompleteRecord "AAPL"
    (by decide) (by decide) (by decide)

theorem currentScores_keys (r : Record) :
    (currentScores r).map Prod.fst = registryKeys := by
  unfold currentScores registryKeys
  rw [List.map_map]
  rfl

theorem registryKeys_nodup : registryKeys.Nodup := by decide

/-- Filtering a keyed list whose predicate holds at exactly one key yields
that key alone. -/
theorem filter_keys_single {β : Type} (q : String → Bool) (kstar : String) :
    ∀ (l : List (String × β)), (l.map Prod.fst).Nodup → kstar ∈ l.map Prod.fst →
      (∀ k ∈ l.map Prod.fst, k ≠ kstar → q k = false) → q kstar = true →
      (l.filter (fun p => q p.1)).map Prod.fst = [kstar] := by
  intro l
  induction l with
  | nil => intro _ hmem; cases hmem
  | cons p t ih =>
    intro hnd hmem hoth hq
    simp only [List.map_cons, List.nodup_cons] at hnd
    rw [List.map_cons] at hmem
    by_cases hp : p.1 = kstar
    · rw [List.filter_cons_of_pos (by simpa [hp] using hq)]
      have ht : t.filter (fun p => q p.1) = [] := by
        rw [List.filter_eq_nil_iff]
        intro a ha
        have hane : a.1 ≠ kstar := by
          intro hcon
          rw [← hp] at hcon
          exact hnd.1 (hcon ▸ List.mem_map_of_mem Prod.fst ha)
        simpa using hoth a.1 (by simp [List.mem_map_of_mem Prod.fst ha]) hane
      rw [ht]
      simp [hp]
    · have hq0 : q p.1 = false := hoth p.1 (by simp) hp
      rw [List.filter_cons_of_neg (by simp [hq0])]
      apply ih hnd.2
      · rcases List.mem_cons.mp hmem with hcon | hmemt
        · exact absurd hcon.symm hp
        · exact hmemt
      · intro k hk hkne
        exact hoth k (by simp [hk]) hkne
      · exact hq

/-- C2 (amended): for an identity whose found record has, after the legacy
`score`-field fallback for `moat_score`, exactly one registry metric with a
falsy effective value, acquisition queries the oracle exactly once — for that
metric only — and every other registry metric keeps its effective value in the
record that is returned and saved; in particular every previously-present
truthy metric value is unchanged.  (The original claim, keyed on the record's
raw keys rather than the effective values, fails when `moat_score` is the
absent key and a legacy `score` field is present: see the counterexample.) -/
theorem C2_partial_merge_safety {σ : Type} (oracle : σ → String → String → String × σ)
    (tbl : List (String × String)) (store : Store) (input : String) (s : σ)
    (company : String) (r : Record) (k0 kstar : String)
    (hres : alookup tbl (pyUpper (pyStrip input)) = some company)
    (hprobe : probeRecord store (pyUpper (pyStrip input)) company = some (r, k0))
    (hmem : kstar ∈ registryKeys)
    (hfalsy : truthy (effectiveValue r kstar) = false)
    (hothers : ∀ k ∈ registryKeys, k ≠ kstar → truthy (effectiveValue r k) = true) :
    ∃ (filled : Record) (s1 : σ),
      score_single_ticker oracle tbl store input s
        = (some ⟨pyUpper (pyStrip input), company, filled,
                 calculate_total_score filled, true, false⟩,
           ainsert store (pyUpper (pyStrip input)) filled, [kstar], s1)
      ∧ (∀ k ∈ registryKeys, k ≠ kstar → alookup filled k = effectiveValue r k)
      ∧ (∀ k ∈ registryKeys, truthy (alookup r k) = true → alookup filled k = alookup r k) := by
  have hcsnd : ((currentScores r).map Prod.fst).Nodup := by
    rw [currentScores_keys]
    exact registryKeys_nodup
  have hkstarpair : (kstar, effectiveValue r kstar) ∈ currentScores r := by
    rcases List.mem_map.mp hmem with ⟨p, hp, hpk⟩
    subst hpk
    exact List.mem_map_of_mem _ hp
  have hall : ¬ ((currentScores r).all (fun p => truthy p.2) = true) := by
    rw [List.all_eq_true]
    intro hcon
    have := hcon _ hkstarpair
    simp only [] at this
    rw [hfalsy] at this
    cases this
  rcases hfill : fillScores oracle company (currentScores r) s with ⟨filled, log, s1⟩
  have hlog : log = [kstar] := by
    have h1 := fillScores_log oracle company (currentScores r) s
    rw [hfill] at h1
    simp only [] at h1
    rw [h1]
    have h2 : ((currentScores r).filter (fun p => !(truthy p.2)))
        = (currentScores r).filter (fun p => (fun k => !(truthy (effectiveValue r k))) p.1) := by
      apply List.filter_congr
      intro p hp
      rcases List.mem_map.mp hp with ⟨q, _, hpq⟩
      subst hpq
      rfl
    rw [h2]
    refine filter_keys_single (fun k => !(truthy (effectiveValue r k))) kstar
      (currentScores r) hcsnd ?_ ?_ ?_
    · rw [currentScores_keys]
      exact hmem
    · rw [currentScores_keys]
      intro k hk hkne
      simp [hothers k hk hkne]
    · simp [hfalsy]
  have hframe : ∀ k ∈ registryKeys, k ≠ kstar → alookup filled k = effectiveValue r k := by
    intro k hk hkne
    have htr := hothers k hk hkne
    have hpair : (k, effectiveValue r k) ∈ currentScores r := by
      rcases List.mem_map.mp hk with ⟨p, hp, hpk⟩
      subst hpk
      exact List.mem_map_of_mem _ hp
    have := fillScores_lookup_truthy oracle company (currentScores r) s k
      (effectiveValue r k) hcsnd hpair htr
    rw [hfill] at this
    simp only [] at this
    cases hev : effectiveValue r k with
    | none =>
      rw [hev] at htr
      simp [truthy] at htr
    | some v =>
      rw [hev] at this
      simpa using this
  refine ⟨filled, s1, ?_, hframe, ?_⟩
  · unfold score_single_ticker
    simp only [hres, hprobe]
    rw [if_neg hall]
    simp only [hfill, hlog]
  · intro k hk htr
    have hev := effectiveValue_of_truthy r k htr
    have hkne : k ≠ kstar := by
      intro hcon
      subst hcon
      rw [hev] at hfalsy
      rw [htr] at hfalsy
      cases hfalsy
    rw [hframe k hk hkne, hev]

/-- Witness for C2: a record missing only `barriers_score` triggers exactly
one oracle call, for `barriers_score`, and every other registry value is
carried over unchanged. -/
theorem C2_partial_merge_safety_witness :
    ∃ (filled : Record) (s1 : Unit),
      score_single_ticker (fun (s : Unit) _ _ => ("7", s)) [("AAPL", "Apple Inc")]
          [("AAPL", examplePartialRecord)] "AAPL" ()
        = (some ⟨pyUpper (pyStrip "AAPL"), "Apple Inc", filled,
                 calculate_total_score filled, true, false⟩,
           ainsert [("AAPL", examplePartialRecord)] (pyUpper (pyStrip "AAPL")) filled,
           ["barriers_score"], s1)
      ∧ (∀ k ∈ registryKeys, k ≠ "barriers_score" →
          alookup filled k = effectiveValue examplePartialRecord k)
      ∧ (∀ k ∈ registryKeys, truthy (alookup examplePartialRecord k) = true →
          alookup filled k = alookup examplePartialRecord k) :=
  C2_partial_merge_safety (fun (s : Unit) _ _ => ("7", s)) [("AAPL", "Apple Inc")]
    [("AAPL", examplePartialRecord)] "AAPL" () "Apple Inc" examplePartialRecord
    "AAPL" "barriers_score" (by decide) (by decide) (by decide) (by decide) (by decide)

/-- Counterexample to C2 as stated: `exampleLegacyScoreRecord` is missing
exactly one registry metric (`moat_score` is absent, every other registry key
is truthy), yet acquisition issues **zero** oracle calls, not one: the legacy
`score` field fills `moat_score` via the `.get(score_key, existing.get('score'))`
fallback and the record is treated as complete. -/
theorem C2_legacy_score_fallback_counterexample :
    alookup exampleLegacyScoreRecord "moat_score" = none
    ∧ (∀ k ∈ registryKeys, k ≠ "moat_score" →
        truthy (alookup exampleLegacyScoreRecord k) = true)
    ∧ (score_single_ticker (fun (s : Unit) _ _ => ("7", s)) [("AAPL", "Apple Inc")]
        [("AAPL", exampleLegacyScoreRecord)] "AAPL" ()).2.2.1 = []
    ∧ (score_single_ticker (fun (s : Unit) _ _ => ("7", s)) [("AAPL", "Apple Inc")]
        [("AAPL", exampleLegacyScoreRecord)] "AAPL" ()).2.1
        = [("AAPL", exampleLegacyScoreRecord)]
    ∧ ([] : List String) ≠ ["moat_score"] := by
  refine ⟨by decide, by decide, ?_, ?_, by decide⟩
  · decide
  · decide

theorem alookup_map_keep {α : Type} (l : List (String × α)) (k k2 : String) (v : α)
    (h : k2 ≠ k) :
    alookup (l.map (fun p => if p.1 = k then (k, v) else p)) k2 = alookup l k2 := by
  induction l with
  | nil => rfl
  | cons p t ih =>
    rw [List.map_cons]
    by_cases hp : p.1 = k
    · rw [if_pos hp]
      have h2 : k2 ≠ p.1 := by rw [hp]; exact h
      rw [alookup_cons_ne v _ h]
      unfold alookup at ih ⊢
      rw [List.find?_cons_of_neg _ (by simpa using fun he => h2 he.symm)]
      exact ih
    · rw [if_neg hp]
      by_cases hk2 : p.1 = k2
      · unfold alookup
        rw [List.find?_cons_of_pos _ (by simpa using hk2),
          List.find?_cons_of_pos _ (by simpa using hk2)]
      · unfold alookup at ih ⊢
        rw [List.find?_cons_of_neg _ (by simpa using hk2),
          List.find?_cons_of_neg _ (by simpa using hk2)]
        exact ih

theorem alookup_append_single_ne {α : Type} (l : List (String × α)) (k k2 : String) (v : α)
    (h : k2 ≠ k) :
    alookup (l ++ [(k, v)]) k2 = alookup l k2 := by
  induction l with
  | nil =>
    show alookup [(k, v)] k2 = alookup [] k2
    rw [alookup_cons_ne v [] h]
  | cons p t ih =>
    show alookup (p :: (t ++ [(k, v)])) k2 = alookup (p :: t) k2
    by_cases hk2 : p.1 = k2
    · unfold alookup
      rw [List.find?_cons_of_pos _ (by simpa using hk2),
        List.find?_cons_of_pos _ (by simpa using hk2)]
    · unfold alookup at ih ⊢
      rw [List.find?_cons_of_neg _ (by simpa using hk2),
        List.find?_cons_of_neg _ (by simpa using hk2)]
      exact ih

/-- Updating one key of the store leaves every other key's record unchanged. -/
theorem alookup_ainsert_ne {α : Type} (l : List (String × α)) (k k2 : String) (v : α)
    (h : k2 ≠ k) : alookup (ainsert l k v) k2 = alookup l k2 := by
  unfold ainsert
  split
  · exact alookup_map_keep l k k2 v h
  · exact alookup_append_single_ne l k k2 v h

/-- C3 (amended): when acquisition takes the fill branch (the found record is
incomplete), the record saved for the resolved ticker consists of **exactly**
the registry metric keys — keys of the old record that are not registry keys
(bookkeeping fields such as `date`/`timestamp`, or the legacy `score` field)
are *not* carried into the newly saved record, contrary to the original
claim; records stored under any other store key are untouched. -/
theorem C3_fill_branch_saves_registry_keys_only {σ : Type}
    (oracle : σ → String → String → String × σ)
    (tbl : List (String × String)) (store : Store) (input : String) (s : σ)
    (company : String) (r : Record) (k0 : String)
    (hres : alookup tbl (pyUpper (pyStrip input)) = some company)
    (hprobe : probeRecord store (pyUpper (pyStrip input)) company = some (r, k0))
    (hincomplete : ¬ ((currentScores r).all (fun p => truthy p.2) = true)) :
    ∃ (filled : Record) (log : List String) (s1 : σ),
      score_single_ticker oracle tbl store input s
        = (some ⟨pyUpper (pyStrip input), company, filled,
                 calculate_total_score filled, true, false⟩,
           ainsert store (pyUpper (pyStrip input)) filled, log, s1)
      ∧ filled.map Prod.fst = registryKeys
      ∧ (∀ k2, k2 ≠ pyUpper (pyStrip input) →
          alookup (ainsert store (pyUpper (pyStrip input)) filled) k2 = alookup store k2) := by
  rcases hfill : fillScores oracle company (currentScores r) s with ⟨filled, log, s1⟩
  refine ⟨filled, log, s1, ?_, ?_, ?_⟩
  · unfold score_single_ticker
    simp only [hres, hprobe]
    rw [if_neg hincomplete]
    simp only [hfill]
  · have := fillScores_keys oracle company (currentScores r) s
    rw [hfill] at this
    simp only [] at this
    rw [this, currentScores_keys]
  · intro k2 hk2
    exact alookup_ainsert_ne store (pyUpper (pyStrip input)) k2 filled hk2

/-- Witness for C3 (amended): filling the record that carries a `date` field
saves a record whose keys are exactly the registry keys. -/
theorem C3_fill_branch_saves_registry_keys_only_witness :
    ∃ (filled : Record) (log : List String) (s1 : Unit),
      score_single_ticker (fun (s : Unit) _ _ => ("7", s)) [("AAPL", "Apple Inc")]
          [("AAPL", exampleExtrasRecord)] "AAPL" ()
        = (some ⟨pyUpper (pyStrip "AAPL"), "Apple Inc", filled,
                 calculate_total_score filled, true, false⟩,
           ainsert [("AAPL", exampleExtrasRecord)] (pyUpper (pyStrip "AAPL")) filled, log, s1)
      ∧ filled.map Prod.fst = registryKeys
      ∧ (∀ k2, k2 ≠ pyUpper (pyStrip "AAPL") →
          alookup (ainsert [("AAPL", exampleExtrasRecord)] (pyUpper (pyStrip "AAPL")) filled) k2
            = alookup [("AAPL", exampleExtrasRecord)] k2) :=
  C3_fill_branch_saves_registry_keys_only (fun (s : Unit) _ _ => ("7", s))
    [("AAPL", "Apple Inc")] [("AAPL", exampleExtrasRecord)] "AAPL" () "Apple Inc"
    exampleExtrasRecord "AAPL" (by decide) (by decide) (by decide)

/-- Counterexample to C3 as stated: the stored record's `date` field, an extra
key not touched by this round of acquisition, is **deleted** from the record
saved for the identity — the source replaces the stored record wholesale with
`current_scores`, which holds only registry keys (scorer.py line 836). -/
theorem C3_extra_keys_dropped_counterexample :
    alookup exampleExtrasRecord "date" = some "2024-01-01"
    ∧ (score_single_ticker (fun (s : Unit) _ _ => ("7", s)) [("AAPL", "Apple Inc")]
        [("AAPL", exampleExtrasRecord)] "AAPL" ()).2.1
      = [("AAPL", expectedFilledRecord)]
    ∧ alookup expectedFilledRecord "date" = none := by
  refine ⟨by decide, by decide, by decide⟩

end StockScorer
